import Mathlib

/-!
Verification development for the streaming dispatch core of the daydreams
repository (file `streaming.ts`, provided as src/unnamed/part_000).

The file is organised as: shallow embedding of the source (data model and
operations), then helper lemmas, then one theorem per specification claim.

Embedding conventions:
* The XML stream parser (`xmlStreamParser`, file xml.ts) is not part of the
  provided sources; its output interface — an ordered sequence of
  start/text/end events — is taken as the input of `handleStream`, exactly as
  `handleChunk` consumes `parser.next()` results one by one.  Chunk boundaries
  do not affect which events are processed or in which order, so a run over a
  chunked stream is a run over the flat event list.
* JS mutable state (the `current`/`stack` variables, the `chain` and
  `workingMemory` arrays, the `state.logsByIndex` map) becomes explicit state
  records threaded through step functions.
* `randomUUIDv7()` is modelled by a fresh-id counter `nextId`, `Date.now()` by
  a clock field `now` that system steps may advance.
* The `await` suspension points inside `handleActionCallStream` and
  `handleOutputStream` (part_000 lines 212 and 259) are modelled explicitly by
  the microtask layer (`MState`, `mhandler`, `runTask`): dispatching a done
  action_call or output element runs synchronously only up to the `await` and
  queues the continuation after it as a microtask, which runs after the
  synchronous scan of the current chunk; the done=true branches of
  `handleActionCallStream` and `handleOutputStream` are exactly those resumed
  continuations.
* External collaborators that are not in the provided sources
  (`prepareActionCall`, `handleActionCall`, `handleOutput`, `generateEpisode`,
  `JSON.stringify`) are modelled from the spec as oracles in `Config` /
  step parameters; per spec section 4.4 action resolution is non-fatal.
* Hook invocations (`onLogStream`, `onThinking`), episode-generation
  invocations and `logger.error` calls are recorded in trace lists so that
  claims about them can be stated.
-/

namespace Daydreams

/-- Structural events produced by the tag stream parser: `start(name, attributes)`,
`text(content)`, and end events (constructor `close`, since `end` is reserved). -/
inductive XmlEvent where
  | start (name : String) (attributes : List (String × String))
  | text (content : String)
  | close
  deriving DecidableEq, Repr

/-- StackElement from part_000 lines 26-32: an indexed element with tag,
attributes, accumulated content fragments and a done flag. -/
structure StackElement where
  index : Nat
  tag : String
  attributes : List (String × String)
  content : List String
  done : Bool
  deriving DecidableEq, Repr

/-- State of `handleStream` (part_000 lines 44-47), plus the trace `calls` of
callback (`fn`) invocations, newest last. -/
structure HSState where
  current : Option StackElement
  stack : List StackElement
  index : Nat
  calls : List StackElement
  deriving DecidableEq, Repr

/-- One parser event processed by `handleChunk` (part_000 lines 49-81).
The stack is kept head-is-top, so `stack.push` is cons and `stack.pop` takes
`head?` and `tail` (returning `undefined` on an empty stack becomes `none`). -/
def handleEvent (s : HSState) (e : XmlEvent) : HSState :=
  match e with
  | .start name attrs =>
      let stack2 := match s.current with
        | some c => c :: s.stack
        | none => s.stack
      let el : StackElement := ⟨s.index, name, attrs, [], false⟩
      ⟨some el, stack2, s.index + 1, s.calls ++ [el]⟩
  | .close =>
      match s.current with
      | some c => ⟨s.stack.head?, s.stack.tail, s.index, s.calls ++ [{ c with done := true }]⟩
      | none => ⟨s.stack.head?, s.stack.tail, s.index, s.calls⟩
  | .text t =>
      match s.current with
      | some c =>
          let c2 := { c with content := c.content ++ [t] }
          ⟨some c2, s.stack, s.index, s.calls ++ [c2]⟩
      | none => s

/-- Run `handleEvent` over a list of events from an arbitrary state. -/
def runFrom (s : HSState) (events : List XmlEvent) : HSState :=
  events.foldl handleEvent s

/-- handleStream (part_000 lines 34-88): consume the parser event stream from
the caller-supplied initial index, with no element open. -/
def handleStream (events : List XmlEvent) (initialIndex : Nat) : HSState :=
  runFrom ⟨none, [], initialIndex, []⟩ events

/-- Discriminator of the Log union (the `ref` field of each record). -/
inductive RefKind where
  | thought
  | action_call
  | action_result
  | output
  deriving DecidableEq, Repr

/-- Data payload of an ActionResult: either a value from the handler or the
object `\x7b error: <serialized failure> \x7d` built in the catch branch
(part_000 line 239). -/
inductive RData where
  | value (s : String)
  | errorObj (s : String)
  deriving DecidableEq, Repr

/-- Log records (the tagged union used by the dispatch path).  Ids are
modelled as naturals (fresh-counter model of `randomUUIDv7`).  The `name`
of an action call is `el.attributes.name`, which is `undefined` when the
attribute is absent, hence `Option String`. -/
inductive Log where
  | thought (id : Nat) (timestamp : Nat) (content : String) (processed : Bool)
  | action_call (id : Nat) (timestamp : Nat) (name : Option String) (content : String)
      (data : Option String) (processed : Bool)
  | action_result (id : Nat) (timestamp : Nat) (callId : Nat) (name : Option String)
      (data : RData) (processed : Bool)
  | output_ref (id : Nat) (timestamp : Nat) (type : String) (data : String) (processed : Bool)
  deriving DecidableEq, Repr

/-- The `ref` discriminator of a record. -/
def Log.ref : Log → RefKind
  | .thought .. => .thought
  | .action_call .. => .action_call
  | .action_result .. => .action_result
  | .output_ref .. => .output

/-- The `id` field of a record. -/
def Log.rid : Log → Nat
  | .thought i .. => i
  | .action_call i .. => i
  | .action_result i .. => i
  | .output_ref i .. => i

/-- The `timestamp` field of a record. -/
def Log.rtimestamp : Log → Nat
  | .thought _ t .. => t
  | .action_call _ t .. => t
  | .action_result _ t .. => t
  | .output_ref _ t .. => t

/-- The `name` field of a record, where present. -/
def Log.rname : Log → Option String
  | .action_call _ _ n .. => n
  | .action_result _ _ _ n .. => n
  | _ => none

/-- PartialLog (part_000 lines 21-22): the fields shared by every record that
`getOrCreateRef` allocates per element index. -/
structure PartialLog where
  ref : RefKind
  id : Nat
  timestamp : Nat
  processed : Bool
  deriving DecidableEq, Repr

/-- WorkingMemory: the four append-only sequences written by the commit path. -/
structure WorkingMemory where
  thoughts : List Log := []
  calls : List Log := []
  results : List Log := []
  outputs : List Log := []
  deriving DecidableEq, Repr

/-- Dispatch-side observable state: the Chain, WorkingMemory, and the traces
of hook invocations, episode-generation invocations and logged errors. -/
structure DState where
  chain : List Log := []
  wm : WorkingMemory := {}
  onLogStream : List (Log × Bool) := []
  onThinking : List Log := []
  episodes : List (Log × Log × Log) := []
  errors : List String := []
  deriving DecidableEq, Repr

/-- External collaborators, modelled from the spec (their code is outside the
provided sources): `generateMemories` is the presence of
`agent.memory.generateMemories`; `episodeFail` is the failure behaviour of the
asynchronous `generateEpisode` (a failure message is logged, nothing else);
`handleOutput` is the output pipeline returning the refs to commit;
`serialize` is `JSON.stringify` on a failure. -/
structure Config where
  generateMemories : Bool
  episodeFail : Log → Log → Log → Option String
  handleOutput : Log → List Log
  serialize : String → String

/-- pushLogStream (part_000 lines 161-204): on `done` append to Chain, then to
the matching WorkingMemory sequence; on an action result check the episodic
trigger; always notify the `onLogStream` hook last. -/
def pushLogStream (cfg : Config) (s : DState) (log : Log) (done : Bool) : DState :=
  if done then
    let s := { s with chain := s.chain ++ [log] }
    let s :=
      match log.ref with
      | .thought =>
          { s with
              wm := { s.wm with thoughts := s.wm.thoughts ++ [log] },
              onThinking := s.onThinking ++ [log] }
      | .action_call =>
          { s with wm := { s.wm with calls := s.wm.calls ++ [log] } }
      | .action_result =>
          let s := { s with wm := { s.wm with results := s.wm.results ++ [log] } }
          match s.wm.thoughts.getLast?, s.wm.calls.getLast? with
          | some lastThought, some lastActionCall =>
              if cfg.generateMemories then
                let s := { s with episodes := s.episodes ++ [(lastThought, lastActionCall, log)] }
                match cfg.episodeFail lastThought lastActionCall log with
                | some e => { s with errors := s.errors ++ ["Failed to generate episode: " ++ e] }
                | none => s
              else s
          | _, _ => s
      | .output => s
    { s with onLogStream := s.onLogStream ++ [(log, true)] }
  else
    { s with onLogStream := s.onLogStream ++ [(log, false)] }

/-- Full state of one `createContextStreamHandler` session: the handler-local
`state` (index, logsByIndex), the dispatch-side state, the `actionCalls`
pending-execution list, the cancellation flag, and the fresh-id/clock model. -/
structure SysState where
  index : Nat := 0
  logsByIndex : List (Nat × PartialLog) := []
  d : DState := {}
  pending : List Log := []
  aborted : Bool := false
  nextId : Nat := 0
  now : Nat := 0
  deriving Repr

/-- getOrCreateRef (part_000 lines 142-159): allocate id, timestamp and
`processed := false` for an element index on first use, return the stored
entry afterwards. -/
def getOrCreateRef (s : SysState) (index : Nat) (ref : RefKind) : PartialLog × SysState :=
  match s.logsByIndex.lookup index with
  | some pl => (pl, s)
  | none =>
      let pl : PartialLog := ⟨ref, s.nextId, s.now, false⟩
      (pl, { s with logsByIndex := s.logsByIndex ++ [(index, pl)], nextId := s.nextId + 1 })

/-- handleActionCallStream (part_000 lines 206-252).  Partial updates only
notify hooks.  On done the source first suspends on `await prepareActionCall`
(external, non-fatal per spec section 4.4, so no modelled state change): the
done=true branch of this function is the CONTINUATION resumed after that
await (lines 218-251) — its microtask timing relative to the synchronous
chunk scan is modelled by `mhandler`/`runTask` below.  The continuation: if
the abort signal is set by then, return without committing anything;
otherwise commit the call record and queue the detached execution in
`pending`. -/
def handleActionCallStream (cfg : Config) (s : SysState) (call : Log) (done : Bool) : SysState :=
  if !done then { s with d := pushLogStream cfg s.d call false }
  else if s.aborted then s
  else
    let s := { s with d := pushLogStream cfg s.d call true }
    { s with pending := s.pending ++ [call] }

/-- Body of the commit loop of handleOutputStream (part_000 lines 268-276):
append the ref to WorkingMemory.outputs, then commit it through
`pushLogStream`. -/
def commitOutputRef (cfg : Config) (s : SysState) (r : Log) : SysState :=
  let s := { s with d := { s.d with wm := { s.d.wm with outputs := s.d.wm.outputs ++ [r] } } }
  { s with d := pushLogStream cfg s.d r true }

/-- handleOutputStream (part_000 lines 254-277): partial updates only notify
hooks.  On done the source suspends on `await handleOutput` (line 259): the
done=true branch here is the continuation resumed after that await — the
external output pipeline has returned its refs, and each is appended to
WorkingMemory.outputs and then committed through `pushLogStream`; the
microtask timing of the resumption is modelled by `mhandler`/`runTask`. -/
def handleOutputStream (cfg : Config) (s : SysState) (outputRef : Log) (done : Bool) : SysState :=
  if !done then { s with d := pushLogStream cfg s.d outputRef false }
  else
    (cfg.handleOutput outputRef).foldl (commitOutputRef cfg) s

/-- handler (part_000 lines 279-349): the per-element callback.  Returns
immediately when the abort signal is set; otherwise bumps `state.index`,
materialises the per-index PartialLog and dispatches by tag.  An output
element without a `type` attribute is dropped with a logged error. -/
def handler (cfg : Config) (s : SysState) (el : StackElement) : SysState :=
  if s.aborted then s
  else
    let s := { s with index := max el.index s.index }
    match el.tag with
    | "think" | "reasoning" =>
        let r := getOrCreateRef s el.index .thought
        { r.2 with
            d := pushLogStream cfg r.2.d
              (.thought r.1.id r.1.timestamp (String.join el.content) r.1.processed) el.done }
    | "action_call" =>
        let r := getOrCreateRef s el.index .action_call
        handleActionCallStream cfg r.2
          (.action_call r.1.id r.1.timestamp (el.attributes.lookup "name")
            (String.join el.content) none r.1.processed) el.done
    | "output" =>
        let r := getOrCreateRef s el.index .output
        match el.attributes.lookup "type" with
        | none =>
            { r.2 with d := { r.2.d with errors := r.2.d.errors ++ ["Missing output type attribute"] } }
        | some ty =>
            handleOutputStream cfg r.2
              (.output_ref r.1.id r.1.timestamp ty (String.join el.content).trim r.1.processed)
              el.done
    | _ => s

/-- Completion of the detached execution queued at position `k` of `pending`
(the promise continuations of part_000 lines 222-251): a failure is caught
and turned into an ActionResult carrying the serialized error together with
the call id and name; either way the result re-enters `pushLogStream` as a
final commit.  A promise resolves once, so the entry is consumed. -/
def completeStep (cfg : Config) (s : SysState) (k : Nat) (outcome : Except String Log) : SysState :=
  match s.pending.get? k with
  | none => s
  | some call =>
      let s := { s with pending := s.pending.eraseIdx k }
      match outcome with
      | .ok res => { s with d := pushLogStream cfg s.d res true }
      | .error err =>
          let res : Log :=
            .action_result s.nextId s.now call.rid call.rname (.errorObj (cfg.serialize err)) false
          { s with nextId := s.nextId + 1, d := pushLogStream cfg s.d res true }

/-- A deferred continuation of an async dispatch function, queued at its
`await` suspension: the tail of handleActionCallStream after
`await prepareActionCall` (part_000 lines 218-251), or the commit loop of
handleOutputStream after `await handleOutput` (lines 268-276). -/
inductive MicroTask where
  | actionResume (call : Log)
  | outputResume (outputRef : Log)
  deriving DecidableEq, Repr

/-- System state together with the FIFO microtask queue of deferred
continuations: the synchronous scan of a chunk only queues them; they run
when the scan yields. -/
structure MState where
  sys : SysState := {}
  tasks : List MicroTask := []
  deriving Repr

/-- handler (part_000 lines 279-349) with the `await` suspensions explicit:
think/reasoning dispatches commit synchronously (pushLogStream contains no
await); a done action_call or output element runs synchronously only up to
the `await` (the index bump, getOrCreateRef and the missing-type check) and
queues the continuation as a microtask — so structurally later elements of
the same chunk dispatch before the deferred commit runs. -/
def mhandler (cfg : Config) (m : MState) (el : StackElement) : MState :=
  if m.sys.aborted then m
  else
    let s := { m.sys with index := max el.index m.sys.index }
    match el.tag with
    | "think" | "reasoning" =>
        let r := getOrCreateRef s el.index .thought
        { m with sys := { r.2 with d := (pushLogStream cfg r.2.d
            (.thought r.1.id r.1.timestamp (String.join el.content) r.1.processed) el.done) } }
    | "action_call" =>
        let r := getOrCreateRef s el.index .action_call
        let call : Log := .action_call r.1.id r.1.timestamp (el.attributes.lookup "name")
          (String.join el.content) none r.1.processed
        if el.done then
          { sys := r.2, tasks := m.tasks ++ [.actionResume call] }
        else
          { m with sys := { r.2 with d := pushLogStream cfg r.2.d call false } }
    | "output" =>
        let r := getOrCreateRef s el.index .output
        match el.attributes.lookup "type" with
        | none =>
            { m with sys := { r.2 with d := { r.2.d with
                errors := r.2.d.errors ++ ["Missing output type attribute"] } } }
        | some ty =>
            let outputRef : Log := .output_ref r.1.id r.1.timestamp ty
              (String.join el.content).trim r.1.processed
            if el.done then
              { sys := r.2, tasks := m.tasks ++ [.outputResume outputRef] }
            else
              { m with sys := { r.2 with d := pushLogStream cfg r.2.d outputRef false } }
    | _ => { m with sys := s }

/-- Run the first queued microtask: the resumed continuations are exactly the
done=true branches of `handleActionCallStream` and `handleOutputStream`. -/
def runTask (cfg : Config) (m : MState) : MState :=
  match m.tasks with
  | [] => m
  | .actionResume call :: rest =>
      { sys := handleActionCallStream cfg m.sys call true, tasks := rest }
  | .outputResume outputRef :: rest =>
      { sys := handleOutputStream cfg m.sys outputRef true, tasks := rest }

/-- Interleaved steps of one session: an element update from the synchronous
chunk scan, a microtask resumption, completion of a pending detached
execution, setting the abort signal, or the clock advancing. -/
inductive MStep where
  | elem (el : StackElement)
  | task
  | complete (k : Nat) (outcome : Except String Log)
  | setAbort
  | tick (dt : Nat)

/-- One system step. -/
def mStep (cfg : Config) (m : MState) (step : MStep) : MState :=
  match step with
  | .elem el => mhandler cfg m el
  | .task => runTask cfg m
  | .complete k outcome => { m with sys := completeStep cfg m.sys k outcome }
  | .setAbort => { m with sys := { m.sys with aborted := true } }
  | .tick dt => { m with sys := { m.sys with now := m.sys.now + dt } }

/-- Run a list of system steps. -/
def runMSteps (cfg : Config) (m : MState) (steps : List MStep) : MState :=
  steps.foldl (mStep cfg) m

/-- The still-open elements of a stream state, newest first (`current` on top,
then the stack). -/
def openL (s : HSState) : List StackElement :=
  s.current.toList ++ s.stack

/-- The callback invocations recorded for one element index. -/
def callsFor (i : Nat) (t : List StackElement) : List StackElement :=
  t.filter (fun c => c.index == i)

/-- A creation-time callback: empty content and not done. -/
def isCreation (c : StackElement) : Bool :=
  c.content.isEmpty && !c.done

/-- The creation-time snapshot of an element. -/
def creationOf (e : StackElement) : StackElement :=
  ⟨e.index, e.tag, e.attributes, [], false⟩

/-- Invariant of `handleStream` runs started at initial index `i0`, tying the
open elements and the callback trace together. -/
structure StreamInv (i0 : Nat) (s : HSState) : Prop where
  cur_none : s.current = none → s.stack = []
  le_index : i0 ≤ s.index
  open_bounds : ∀ e ∈ openL s, i0 ≤ e.index ∧ e.index < s.index
  open_sorted : (openL s).Pairwise (fun a b => b.index < a.index)
  creations_eq : ((s.calls.filter isCreation).map StackElement.index) = List.range' i0 (s.index - i0)
  open_spec : ∀ e ∈ openL s,
      e.done = false ∧
      (callsFor e.index s.calls).head? = some (creationOf e) ∧
      (callsFor e.index s.calls).getLast? = some e ∧
      (callsFor e.index s.calls).length = 1 + e.content.length ∧
      (∀ c ∈ callsFor e.index s.calls, c.done = false ∧ c.tag = e.tag ∧ c.attributes = e.attributes)
  closed_spec : ∀ i, i0 ≤ i → i < s.index → (∀ e ∈ openL s, e.index ≠ i) →
      ∃ fin, (callsFor i s.calls).getLast? = some fin ∧ fin.index = i ∧ fin.done = true ∧
        (callsFor i s.calls).head? = some ⟨i, fin.tag, fin.attributes, [], false⟩ ∧
        (callsFor i s.calls).length = 2 + fin.content.length ∧
        (∀ c ∈ (callsFor i s.calls).dropLast, c.done = false) ∧
        (∀ c ∈ callsFor i s.calls, c.tag = fin.tag ∧ c.attributes = fin.attributes)
  calls_bounds : ∀ c ∈ s.calls, i0 ≤ c.index ∧ c.index < s.index

/-- A concrete configuration (no episodic memory generation, output pipeline
returning no refs, identity serialization) used in concrete runs. -/
def cfg0 : Config := ⟨false, fun _ _ _ => none, fun _ => [], fun e => e⟩

/-- Like `cfg0` but with episodic memory generation enabled. -/
def cfgGen : Config := ⟨true, fun _ _ _ => none, fun _ => [], fun e => e⟩

theorem current_start (s : HSState) (n : String) (a : List (String × String)) :
    (handleEvent s (.start n a)).current = some ⟨s.index, n, a, [], false⟩ := by
  cases s.current <;> rfl

theorem index_start (s : HSState) (n : String) (a : List (String × String)) :
    (handleEvent s (.start n a)).index = s.index + 1 := by
  cases s.current <;> rfl

theorem calls_start (s : HSState) (n : String) (a : List (String × String)) :
    (handleEvent s (.start n a)).calls = s.calls ++ [⟨s.index, n, a, [], false⟩] := by
  cases s.current <;> rfl

theorem openL_start (s : HSState) (n : String) (a : List (String × String)) :
    openL (handleEvent s (.start n a)) = ⟨s.index, n, a, [], false⟩ :: openL s := by
  cases h : s.current <;> simp [handleEvent, openL, h]

theorem openL_of_current {s : HSState} {c : StackElement} (h : s.current = some c) :
    openL s = c :: s.stack := by
  simp [openL, h]

theorem handleEvent_text_some {s : HSState} {c : StackElement} (t : String)
    (h : s.current = some c) :
    handleEvent s (.text t) =
      ⟨some { c with content := c.content ++ [t] }, s.stack, s.index,
        s.calls ++ [{ c with content := c.content ++ [t] }]⟩ := by
  simp [handleEvent, h]

theorem handleEvent_text_none {s : HSState} (t : String) (h : s.current = none) :
    handleEvent s (.text t) = s := by
  simp [handleEvent, h]

theorem handleEvent_close_some {s : HSState} {c : StackElement} (h : s.current = some c) :
    handleEvent s .close =
      ⟨s.stack.head?, s.stack.tail, s.index, s.calls ++ [{ c with done := true }]⟩ := by
  simp [handleEvent, h]

theorem openL_close {s : HSState} {c : StackElement} (h : s.current = some c) :
    openL (handleEvent s .close) = s.stack := by
  cases hs : s.stack <;> simp [handleEvent, openL, h, hs]

theorem callsFor_append_eq {c : StackElement} {i : Nat} (t : List StackElement)
    (h : c.index = i) : callsFor i (t ++ [c]) = callsFor i t ++ [c] := by
  simp [callsFor, h]

theorem callsFor_append_ne {c : StackElement} {i : Nat} (t : List StackElement)
    (h : c.index ≠ i) : callsFor i (t ++ [c]) = callsFor i t := by
  simp [callsFor, h]

theorem callsFor_nil_of_bounds {t : List StackElement} {i : Nat}
    (h : ∀ c ∈ t, c.index ≠ i) : callsFor i t = [] := by
  simp only [callsFor, List.filter_eq_nil_iff]
  intro c hc
  simpa using h c hc

theorem head?_append_left {α : Type} {l : List α} {x : α} (l2 : List α)
    (h : l.head? = some x) : (l ++ l2).head? = some x := by
  cases l <;> simp_all

theorem mem_of_callsFor_head? {t : List StackElement} {i : Nat} {x : StackElement}
    (h : (callsFor i t).head? = some x) : x ∈ t := by
  have hx : x ∈ callsFor i t := by
    cases hc : callsFor i t with
    | nil => rw [hc] at h; cases h
    | cons a l => rw [hc] at h; simp at h; simp [hc, h]
  exact List.mem_of_mem_filter hx

theorem mem_callsFor_self {t : List StackElement} {c : StackElement} (h : c ∈ t) :
    c ∈ callsFor c.index t := by
  simp [callsFor, List.mem_filter, h]

theorem streamInv_start {i0 : Nat} {s : HSState} (inv : StreamInv i0 s)
    (n : String) (a : List (String × String)) :
    StreamInv i0 (handleEvent s (.start n a)) := by
  have hcur := current_start s n a
  have hidx := index_start s n a
  have hcalls := calls_start s n a
  have hopen := openL_start s n a
  have hixel : (⟨s.index, n, a, [], false⟩ : StackElement).index = s.index := rfl
  have hforNew : callsFor s.index (handleEvent s (.start n a)).calls =
      [⟨s.index, n, a, [], false⟩] := by
    rw [hcalls, callsFor_append_eq _ hixel,
      callsFor_nil_of_bounds (fun c hc => Nat.ne_of_lt (inv.calls_bounds c hc).2)]
    simp
  constructor
  · intro h
    rw [hcur] at h
    cases h
  · rw [hidx]
    exact inv.le_index.trans (Nat.le_succ _)
  · intro e he
    rw [hopen] at he
    rw [hidx]
    rcases List.mem_cons.mp he with rfl | he2
    · exact ⟨inv.le_index, Nat.lt_succ_self _⟩
    · have := inv.open_bounds e he2
      omega
  · rw [hopen]
    rw [List.pairwise_cons]
    refine ⟨fun b hb => ?_, inv.open_sorted⟩
    simpa using (inv.open_bounds b hb).2
  · rw [hcalls, hidx, List.filter_append]
    have h1 : List.filter isCreation [(⟨s.index, n, a, [], false⟩ : StackElement)] =
        [⟨s.index, n, a, [], false⟩] := by simp [isCreation]
    rw [h1, List.map_append]
    have hk : s.index + 1 - i0 = (s.index - i0) + 1 := by
      have := inv.le_index
      omega
    rw [inv.creations_eq, hk, List.range'_concat]
    have h2 : i0 + 1 * (s.index - i0) = s.index := by
      have := inv.le_index
      simp only [Nat.one_mul]
      omega
    rw [h2]
    rfl
  · intro e he
    rw [hopen] at he
    rcases List.mem_cons.mp he with rfl | he2
    · refine ⟨rfl, ?_, ?_, ?_, ?_⟩
      · rw [hixel, hforNew]
        rfl
      · rw [hixel, hforNew]
        rfl
      · rw [hixel, hforNew]
        rfl
      · intro c hc
        rw [hixel, hforNew] at hc
        simp at hc
        subst hc
        exact ⟨rfl, rfl, rfl⟩
    · have hbnd := inv.open_bounds e he2
      have hne : s.index ≠ e.index := by omega
      rw [hcalls, callsFor_append_ne _ hne]
      exact inv.open_spec e he2
  · intro i h1 h2 h3
    rw [hopen] at h3
    have hine : s.index ≠ i := by
      have := h3 ⟨s.index, n, a, [], false⟩ (List.mem_cons_self _ _)
      simpa using this
    have h2o : i < s.index := by
      rw [hidx] at h2
      omega
    have h3o : ∀ e ∈ openL s, e.index ≠ i := fun e he => h3 e (List.mem_cons_of_mem _ he)
    rw [hcalls, callsFor_append_ne _ hine]
    exact inv.closed_spec i h1 h2o h3o
  · intro c hc
    rw [hcalls] at hc
    rw [hidx]
    rcases List.mem_append.mp hc with hc1 | hc2
    · have := inv.calls_bounds c hc1
      omega
    · simp at hc2
      subst hc2
      exact ⟨inv.le_index, Nat.lt_succ_self _⟩

theorem streamInv_text {i0 : Nat} {s : HSState} (inv : StreamInv i0 s) (t : String) :
    StreamInv i0 (handleEvent s (.text t)) := by
  cases hc : s.current with
  | none =>
      rw [handleEvent_text_none t hc]
      exact inv
  | some c =>
      rw [handleEvent_text_some t hc]
      have hopenS := openL_of_current hc
      have hcm : c ∈ openL s := by
        rw [hopenS]
        exact List.mem_cons_self _ _
      have hbnd := inv.open_bounds c hcm
      obtain ⟨hdone, hhead, hlast, hlen, hall⟩ := inv.open_spec c hcm
      have hstack : ∀ b ∈ s.stack, b.index < c.index := by
        have := inv.open_sorted
        rw [hopenS, List.pairwise_cons] at this
        exact this.1
      have hopenNew : openL (⟨some { c with content := c.content ++ [t] }, s.stack, s.index,
          s.calls ++ [{ c with content := c.content ++ [t] }]⟩ : HSState) =
          { c with content := c.content ++ [t] } :: s.stack := by
        simp [openL]
      have hne : ({ c with content := c.content ++ [t] } : StackElement).index = c.index := rfl
      have hfor : callsFor c.index (s.calls ++ [{ c with content := c.content ++ [t] }]) =
          callsFor c.index s.calls ++ [{ c with content := c.content ++ [t] }] :=
        callsFor_append_eq _ rfl
      have hcne : callsFor c.index s.calls ≠ [] := by
        intro h
        rw [h] at hhead
        cases hhead
      constructor
      · intro h
        cases h
      · exact inv.le_index
      · intro e he
        rw [hopenNew] at he
        rcases List.mem_cons.mp he with rfl | he2
        · exact hbnd
        · exact inv.open_bounds e (by rw [hopenS]; exact List.mem_cons_of_mem _ he2)
      · rw [hopenNew, List.pairwise_cons]
        refine ⟨fun b hb => hstack b hb, ?_⟩
        have := inv.open_sorted
        rw [hopenS, List.pairwise_cons] at this
        exact this.2
      · show ((s.calls ++ [{ c with content := c.content ++ [t] }]).filter isCreation).map
          StackElement.index = List.range' i0 (s.index - i0)
        rw [List.filter_append]
        have h1 : List.filter isCreation [({ c with content := c.content ++ [t] } : StackElement)]
            = [] := by
          simp [isCreation]
        rw [h1, List.append_nil]
        exact inv.creations_eq
      · intro e he
        rw [hopenNew] at he
        rcases List.mem_cons.mp he with rfl | he2
        · refine ⟨hdone, ?_, ?_, ?_, ?_⟩
          · show (callsFor c.index _).head? = _
            rw [hfor, head?_append_left _ hhead]
            rfl
          · show (callsFor c.index _).getLast? = _
            rw [hfor, List.getLast?_concat]
          · show (callsFor c.index _).length = _
            rw [hfor]
            simp only [List.length_append, List.length_cons, List.length_nil, hlen]
            omega
          · intro x hx
            show x.done = false ∧ x.tag = c.tag ∧ x.attributes = c.attributes
            rw [hfor] at hx
            rcases List.mem_append.mp hx with hx1 | hx2
            · exact hall x hx1
            · simp at hx2
              subst hx2
              exact ⟨hdone, rfl, rfl⟩
        · have hne2 : ({ c with content := c.content ++ [t] } : StackElement).index ≠ e.index := by
            have := hstack e he2
            simpa using Nat.ne_of_gt this
          rw [callsFor_append_ne _ hne2]
          exact inv.open_spec e (by rw [hopenS]; exact List.mem_cons_of_mem _ he2)
      · intro i h1 h2 h3
        rw [hopenNew] at h3
        have hci : c.index ≠ i := by
          have := h3 { c with content := c.content ++ [t] } (List.mem_cons_self _ _)
          simpa using this
        have h3o : ∀ e ∈ openL s, e.index ≠ i := by
          intro e he
          rw [hopenS] at he
          rcases List.mem_cons.mp he with rfl | he2
          · exact hci
          · exact h3 e (List.mem_cons_of_mem _ he2)
        have hci2 : ({ c with content := c.content ++ [t] } : StackElement).index ≠ i := hci
        rw [callsFor_append_ne _ hci2]
        exact inv.closed_spec i h1 h2 h3o
      · intro x hx
        rcases List.mem_append.mp hx with hx1 | hx2
        · exact inv.calls_bounds x hx1
        · simp at hx2
          subst hx2
          exact hbnd

theorem streamInv_close {i0 : Nat} {s : HSState} (inv : StreamInv i0 s) :
    StreamInv i0 (handleEvent s .close) := by
  cases hc : s.current with
  | none =>
      have hst := inv.cur_none hc
      have : handleEvent s .close = s := by
        cases s
        simp_all [handleEvent]
      rw [this]
      exact inv
  | some c =>
      rw [handleEvent_close_some hc]
      have hopenS := openL_of_current hc
      have hcm : c ∈ openL s := by
        rw [hopenS]
        exact List.mem_cons_self _ _
      have hbnd := inv.open_bounds c hcm
      obtain ⟨hdone, hhead, hlast, hlen, hall⟩ := inv.open_spec c hcm
      have hstack : ∀ b ∈ s.stack, b.index < c.index := by
        have := inv.open_sorted
        rw [hopenS, List.pairwise_cons] at this
        exact this.1
      have hopenNew : openL (⟨s.stack.head?, s.stack.tail, s.index,
          s.calls ++ [{ c with done := true }]⟩ : HSState) = s.stack := by
        cases hs : s.stack <;> simp [openL, hs]
      have hcne : callsFor c.index s.calls ≠ [] := by
        intro h
        rw [h] at hhead
        cases hhead
      constructor
      · intro h
        simp only at h
        rw [List.head?_eq_none_iff] at h
        simp [h]
      · exact inv.le_index
      · intro e he
        rw [hopenNew] at he
        exact inv.open_bounds e (by rw [hopenS]; exact List.mem_cons_of_mem _ he)
      · rw [hopenNew]
        have := inv.open_sorted
        rw [hopenS, List.pairwise_cons] at this
        exact this.2
      · show ((s.calls ++ [{ c with done := true }]).filter isCreation).map
          StackElement.index = List.range' i0 (s.index - i0)
        rw [List.filter_append]
        have h1 : List.filter isCreation [({ c with done := true } : StackElement)] = [] := by
          simp [isCreation]
        rw [h1, List.append_nil]
        exact inv.creations_eq
      · intro e he
        rw [hopenNew] at he
        have hne : ({ c with done := true } : StackElement).index ≠ e.index := by
          have := hstack e he
          simpa using Nat.ne_of_gt this
        show e.done = false ∧ (callsFor e.index _).head? = some (creationOf e) ∧
          (callsFor e.index _).getLast? = some e ∧
          (callsFor e.index _).length = 1 + e.content.length ∧
          (∀ x ∈ callsFor e.index _, x.done = false ∧ x.tag = e.tag ∧ x.attributes = e.attributes)
        rw [callsFor_append_ne _ hne]
        exact inv.open_spec e (by rw [hopenS]; exact List.mem_cons_of_mem _ he)
      · intro i h1 h2 h3
        rw [hopenNew] at h3
        by_cases hci : c.index = i
        · subst hci
          have hfor : callsFor c.index (s.calls ++ [{ c with done := true }]) =
              callsFor c.index s.calls ++ [{ c with done := true }] :=
            callsFor_append_eq _ rfl
          refine ⟨{ c with done := true }, ?_, rfl, rfl, ?_, ?_, ?_, ?_⟩
          · show (callsFor c.index _).getLast? = _
            rw [hfor, List.getLast?_concat]
          · show (callsFor c.index _).head? = _
            rw [hfor, head?_append_left _ hhead]
            rfl
          · show (callsFor c.index _).length = _
            rw [hfor]
            simp only [List.length_append, List.length_cons, List.length_nil, hlen]
            omega
          · intro x hx
            show x.done = false
            rw [hfor, List.dropLast_concat] at hx
            exact (hall x hx).1
          · intro x hx
            rw [hfor] at hx
            rcases List.mem_append.mp hx with hx1 | hx2
            · have := hall x hx1
              exact ⟨this.2.1, this.2.2⟩
            · simp at hx2
              subst hx2
              exact ⟨rfl, rfl⟩
        · have hci2 : ({ c with done := true } : StackElement).index ≠ i := hci
          have h3o : ∀ e ∈ openL s, e.index ≠ i := by
            intro e he
            rw [hopenS] at he
            rcases List.mem_cons.mp he with rfl | he2
            · exact hci
            · exact h3 e he2
          show ∃ fin, (callsFor i _).getLast? = some fin ∧ _
          rw [callsFor_append_ne _ hci2]
          exact inv.closed_spec i h1 h2 h3o
      · intro x hx
        rcases List.mem_append.mp hx with hx1 | hx2
        · exact inv.calls_bounds x hx1
        · simp at hx2
          subst hx2
          exact hbnd

theorem streamInv_handleEvent {i0 : Nat} {s : HSState} (inv : StreamInv i0 s) (e : XmlEvent) :
    StreamInv i0 (handleEvent s e) := by
  cases e with
  | start n a => exact streamInv_start inv n a
  | text t => exact streamInv_text inv t
  | close => exact streamInv_close inv

theorem streamInv_runFrom {i0 : Nat} (events : List XmlEvent) {s : HSState}
    (inv : StreamInv i0 s) : StreamInv i0 (runFrom s events) := by
  induction events generalizing s with
  | nil => exact inv
  | cons e rest ih => exact ih (streamInv_handleEvent inv e)

theorem streamInv_init (i0 : Nat) : StreamInv i0 ⟨none, [], i0, []⟩ := by
  constructor
  · intro
    rfl
  · exact Nat.le_refl _
  · intro e he
    simp [openL] at he
  · simp [openL]
  · simp [isCreation, callsFor]
  · intro e he
    simp [openL] at he
  · intro i h1 h2 _
    simp only at h2
    omega
  · intro c hc
    simp at hc

theorem streamInv_handleStream (events : List XmlEvent) (i0 : Nat) :
    StreamInv i0 (handleStream events i0) :=
  streamInv_runFrom events (streamInv_init i0)

theorem pushLogStream_false (cfg : Config) (s : DState) (log : Log) :
    pushLogStream cfg s log false = { s with onLogStream := s.onLogStream ++ [(log, false)] } :=
  rfl

theorem pushLogStream_result_unfold (cfg : Config) (s : DState) (i t ci : Nat)
    (n : Option String) (dat : RData) (p : Bool) :
    pushLogStream cfg s (.action_result i t ci n dat p) true =
      (let log : Log := .action_result i t ci n dat p
       let s1 : DState :=
         { s with chain := s.chain ++ [log], wm := { s.wm with results := s.wm.results ++ [log] } }
       let s2 : DState :=
         match s.wm.thoughts.getLast?, s.wm.calls.getLast? with
         | some lt, some lc =>
             if cfg.generateMemories then
               let s3 := { s1 with episodes := s1.episodes ++ [(lt, lc, log)] }
               match cfg.episodeFail lt lc log with
               | some e => { s3 with errors := s3.errors ++ ["Failed to generate episode: " ++ e] }
               | none => s3
             else s1
         | _, _ => s1
       { s2 with onLogStream := s2.onLogStream ++ [(log, true)] }) :=
  rfl

theorem pushLogStream_true_thought (cfg : Config) (s : DState) (i t : Nat) (ct : String)
    (p : Bool) :
    pushLogStream cfg s (.thought i t ct p) true =
      { s with
          chain := s.chain ++ [.thought i t ct p],
          wm := { s.wm with thoughts := s.wm.thoughts ++ [.thought i t ct p] },
          onThinking := s.onThinking ++ [.thought i t ct p],
          onLogStream := s.onLogStream ++ [(.thought i t ct p, true)] } :=
  rfl

theorem pushLogStream_true_action_call (cfg : Config) (s : DState) (i t : Nat)
    (n : Option String) (ct : String) (dt : Option String) (p : Bool) :
    pushLogStream cfg s (.action_call i t n ct dt p) true =
      { s with
          chain := s.chain ++ [.action_call i t n ct dt p],
          wm := { s.wm with calls := s.wm.calls ++ [.action_call i t n ct dt p] },
          onLogStream := s.onLogStream ++ [(.action_call i t n ct dt p, true)] } :=
  rfl

theorem pushLogStream_true_output_ref (cfg : Config) (s : DState) (i t : Nat)
    (ty dt : String) (p : Bool) :
    pushLogStream cfg s (.output_ref i t ty dt p) true =
      { s with
          chain := s.chain ++ [.output_ref i t ty dt p],
          onLogStream := s.onLogStream ++ [(.output_ref i t ty dt p, true)] } :=
  rfl

theorem pushLogStream_true_chain (cfg : Config) (s : DState) (log : Log) :
    (pushLogStream cfg s log true).chain = s.chain ++ [log] := by
  cases log with
  | thought i t ct p => rw [pushLogStream_true_thought]
  | action_call i t n ct dt p => rw [pushLogStream_true_action_call]
  | output_ref i t ty dt p => rw [pushLogStream_true_output_ref]
  | action_result i t ci n dat p =>
      rw [pushLogStream_result_unfold]
      dsimp only
      (repeat' split) <;> rfl

theorem pushLogStream_true_onLogStream (cfg : Config) (s : DState) (log : Log) :
    (pushLogStream cfg s log true).onLogStream = s.onLogStream ++ [(log, true)] := by
  cases log with
  | thought i t ct p => rw [pushLogStream_true_thought]
  | action_call i t n ct dt p => rw [pushLogStream_true_action_call]
  | output_ref i t ty dt p => rw [pushLogStream_true_output_ref]
  | action_result i t ci n dat p =>
      rw [pushLogStream_result_unfold]
      dsimp only
      (repeat' split) <;> rfl

theorem pushLogStream_result_wm (cfg : Config) (s : DState) (i t ci : Nat)
    (n : Option String) (dat : RData) (p : Bool) :
    (pushLogStream cfg s (.action_result i t ci n dat p) true).wm =
      { s.wm with results := s.wm.results ++ [.action_result i t ci n dat p] } := by
  rw [pushLogStream_result_unfold]
  dsimp only
  (repeat' split) <;> rfl

theorem pushLogStream_result_onThinking (cfg : Config) (s : DState) (i t ci : Nat)
    (n : Option String) (dat : RData) (p : Bool) :
    (pushLogStream cfg s (.action_result i t ci n dat p) true).onThinking = s.onThinking := by
  rw [pushLogStream_result_unfold]
  dsimp only
  (repeat' split) <;> rfl

theorem pushLogStream_result_fire (cfg : Config) (s : DState) (i t ci : Nat)
    (n : Option String) (dat : RData) (p : Bool) {lt lc : Log}
    (h1 : s.wm.thoughts.getLast? = some lt) (h2 : s.wm.calls.getLast? = some lc)
    (h3 : cfg.generateMemories = true) :
    (pushLogStream cfg s (.action_result i t ci n dat p) true).episodes =
        s.episodes ++ [(lt, lc, .action_result i t ci n dat p)] ∧
    (pushLogStream cfg s (.action_result i t ci n dat p) true).errors =
        s.errors ++
          (match cfg.episodeFail lt lc (.action_result i t ci n dat p) with
            | some e => ["Failed to generate episode: " ++ e]
            | none => []) := by
  rw [pushLogStream_result_unfold]
  dsimp only
  rw [h1, h2]
  simp only [h3, if_true]
  cases cfg.episodeFail lt lc (.action_result i t ci n dat p) <;> simp

theorem pushLogStream_result_skip (cfg : Config) (s : DState) (i t ci : Nat)
    (n : Option String) (dat : RData) (p : Bool)
    (h : s.wm.thoughts.getLast? = none ∨ s.wm.calls.getLast? = none ∨
      cfg.generateMemories = false) :
    (pushLogStream cfg s (.action_result i t ci n dat p) true).episodes = s.episodes ∧
    (pushLogStream cfg s (.action_result i t ci n dat p) true).errors = s.errors := by
  rw [pushLogStream_result_unfold]
  dsimp only
  rcases h with h | h | h <;> rw [h]
  · cases s.wm.calls.getLast? <;> simp
  · cases s.wm.thoughts.getLast? <;> simp
  · cases s.wm.thoughts.getLast? <;> cases s.wm.calls.getLast? <;> simp


theorem pushLogStream_true_outputs (cfg : Config) (s : DState) (log : Log) :
    (pushLogStream cfg s log true).wm.outputs = s.wm.outputs := by
  cases log with
  | thought i t ct p => rw [pushLogStream_true_thought]
  | action_call i t n ct dt p => rw [pushLogStream_true_action_call]
  | output_ref i t ty dt p => rw [pushLogStream_true_output_ref]
  | action_result i t ci n dat p => rw [pushLogStream_result_wm]

theorem getOrCreateRef_miss (s : SysState) (i : Nat) (ref : RefKind)
    (h : s.logsByIndex.lookup i = none) :
    getOrCreateRef s i ref =
      (⟨ref, s.nextId, s.now, false⟩,
        { s with logsByIndex := s.logsByIndex ++ [(i, ⟨ref, s.nextId, s.now, false⟩)],
                 nextId := s.nextId + 1 }) := by
  unfold getOrCreateRef
  rw [h]

theorem getOrCreateRef_hit (s : SysState) (i : Nat) (ref : RefKind) (pl : PartialLog)
    (h : s.logsByIndex.lookup i = some pl) :
    getOrCreateRef s i ref = (pl, s) := by
  unfold getOrCreateRef
  rw [h]

theorem getOrCreateRef_snd_d (s : SysState) (i : Nat) (ref : RefKind) :
    (getOrCreateRef s i ref).2.d = s.d := by
  unfold getOrCreateRef
  cases s.logsByIndex.lookup i <;> rfl

theorem getOrCreateRef_snd_pending (s : SysState) (i : Nat) (ref : RefKind) :
    (getOrCreateRef s i ref).2.pending = s.pending := by
  unfold getOrCreateRef
  cases s.logsByIndex.lookup i <;> rfl

theorem getOrCreateRef_snd_aborted (s : SysState) (i : Nat) (ref : RefKind) :
    (getOrCreateRef s i ref).2.aborted = s.aborted := by
  unfold getOrCreateRef
  cases s.logsByIndex.lookup i <;> rfl

theorem handleActionCallStream_false (cfg : Config) (s : SysState) (call : Log) :
    handleActionCallStream cfg s call false = { s with d := pushLogStream cfg s.d call false } :=
  rfl

theorem handleActionCallStream_true_aborted (cfg : Config) (s : SysState) (call : Log)
    (h : s.aborted = true) : handleActionCallStream cfg s call true = s := by
  simp [handleActionCallStream, h]

theorem handleActionCallStream_true (cfg : Config) (s : SysState) (call : Log)
    (h : s.aborted = false) :
    handleActionCallStream cfg s call true =
      { s with d := pushLogStream cfg s.d call true, pending := s.pending ++ [call] } := by
  simp [handleActionCallStream, h]

theorem handleOutputStream_false (cfg : Config) (s : SysState) (r : Log) :
    handleOutputStream cfg s r false = { s with d := pushLogStream cfg s.d r false } :=
  rfl

theorem handleOutputStream_true (cfg : Config) (s : SysState) (r : Log) :
    handleOutputStream cfg s r true = (cfg.handleOutput r).foldl (commitOutputRef cfg) s :=
  rfl

theorem commitOutputRef_chain (cfg : Config) (s : SysState) (r : Log) :
    (commitOutputRef cfg s r).d.chain = s.d.chain ++ [r] := by
  unfold commitOutputRef
  exact pushLogStream_true_chain cfg _ r

theorem commitOutputRef_outputs (cfg : Config) (s : SysState) (r : Log) :
    (commitOutputRef cfg s r).d.wm.outputs = s.d.wm.outputs ++ [r] := by
  unfold commitOutputRef
  dsimp only
  rw [pushLogStream_true_outputs]

theorem foldl_commitOutputRef_chain (cfg : Config) (rs : List Log) (s : SysState) :
    (rs.foldl (commitOutputRef cfg) s).d.chain = s.d.chain ++ rs := by
  induction rs generalizing s with
  | nil => simp
  | cons r rest ih =>
      show (rest.foldl (commitOutputRef cfg) (commitOutputRef cfg s r)).d.chain = _
      rw [ih, commitOutputRef_chain]
      simp

theorem foldl_commitOutputRef_outputs (cfg : Config) (rs : List Log) (s : SysState) :
    (rs.foldl (commitOutputRef cfg) s).d.wm.outputs = s.d.wm.outputs ++ rs := by
  induction rs generalizing s with
  | nil => simp
  | cons r rest ih =>
      show (rest.foldl (commitOutputRef cfg) (commitOutputRef cfg s r)).d.wm.outputs = _
      rw [ih, commitOutputRef_outputs]
      simp

theorem callsFor_done_le_one (events : List XmlEvent) (i0 i : Nat) :
    ((callsFor i (handleStream events i0).calls).filter (fun c => c.done)).length ≤ 1 := by
  have inv := streamInv_handleStream events i0
  by_cases hrange : i0 ≤ i ∧ i < (handleStream events i0).index
  · by_cases hopen : ∃ e ∈ openL (handleStream events i0), e.index = i
    · obtain ⟨e, he, hei⟩ := hopen
      obtain ⟨_, _, _, _, hallc⟩ := inv.open_spec e he
      have hnil : (callsFor i (handleStream events i0).calls).filter (fun c => c.done) = [] := by
        rw [← hei]
        exact List.filter_eq_nil_iff.mpr (fun c hc => by simp [(hallc c hc).1])
      rw [hnil]
      simp
    · push_neg at hopen
      obtain ⟨fin, hlast, hfi, hfd, hhead, hlen, hdrop, _⟩ :=
        inv.closed_spec i hrange.1 hrange.2 hopen
      have hne : callsFor i (handleStream events i0).calls ≠ [] := by
        intro h
        rw [h] at hlast
        cases hlast
      have hgl : (callsFor i (handleStream events i0).calls).getLast hne = fin := by
        have := List.getLast?_eq_getLast (callsFor i (handleStream events i0).calls) hne
        rw [this] at hlast
        exact Option.some.inj hlast
      have hsplit : callsFor i (handleStream events i0).calls =
          (callsFor i (handleStream events i0).calls).dropLast ++ [fin] := by
        conv_lhs => rw [← List.dropLast_append_getLast hne]
        rw [hgl]
      rw [hsplit, List.filter_append]
      have h1 : ((callsFor i (handleStream events i0).calls).dropLast).filter
          (fun c => c.done) = [] :=
        List.filter_eq_nil_iff.mpr (fun c hc => by simp [hdrop c hc])
      rw [h1]
      simp [hfd]
  · have hnil : callsFor i (handleStream events i0).calls = [] :=
      callsFor_nil_of_bounds (fun c hc => by
        have := inv.calls_bounds c hc
        omega)
    rw [hnil]
    simp


/-- C2: the index assigned when an element's start event is handled is carried
unchanged by every subsequent partial update and by the final done=true
snapshot (every callback of the trace matches a creation callback with the
same index, tag and attributes), and indices strictly increase across
successively created elements of one session, starting from the
caller-supplied initial index (the creation callbacks carry exactly the
indices initialIndex, initialIndex+1, ...). -/
theorem c2_index_stability (events : List XmlEvent) (i0 : Nat) :
    (((handleStream events i0).calls.filter isCreation).map StackElement.index =
        List.range' i0 ((handleStream events i0).index - i0)) ∧
    ∀ c ∈ (handleStream events i0).calls, ∃ cr ∈ (handleStream events i0).calls,
      isCreation cr = true ∧ cr.index = c.index ∧ cr.tag = c.tag ∧
        cr.attributes = c.attributes := by
  have inv := streamInv_handleStream events i0
  refine ⟨inv.creations_eq, ?_⟩
  intro c hc
  by_cases hopen : ∃ e ∈ openL (handleStream events i0), e.index = c.index
  · obtain ⟨e, he, hei⟩ := hopen
    obtain ⟨_, hhead, _, _, hallc⟩ := inv.open_spec e he
    have hcm : c ∈ callsFor e.index (handleStream events i0).calls := by
      rw [hei]
      exact mem_callsFor_self hc
    obtain ⟨hcd, hct, hca⟩ := hallc c hcm
    refine ⟨creationOf e, mem_of_callsFor_head? hhead, ?_, ?_, ?_, ?_⟩
    · simp [isCreation, creationOf]
    · exact hei
    · exact hct.symm
    · exact hca.symm
  · push_neg at hopen
    have hb := inv.calls_bounds c hc
    obtain ⟨fin, hlast, hfi, hfd, hhead, hlen, hdrop, halltags⟩ :=
      inv.closed_spec c.index hb.1 hb.2 hopen
    obtain ⟨hct, hca⟩ := halltags c (mem_callsFor_self hc)
    refine ⟨⟨c.index, fin.tag, fin.attributes, [], false⟩, mem_of_callsFor_head? hhead,
      ?_, rfl, ?_, ?_⟩
    · simp [isCreation]
    · exact hct.symm
    · exact hca.symm

theorem c2_witness :
    (((handleStream [XmlEvent.start "think" [], XmlEvent.text "a", XmlEvent.close,
        XmlEvent.start "output" [("type", "x")], XmlEvent.close] 0).calls.filter
        isCreation).map StackElement.index = List.range' 0 2) ∧
    ∃ cr ∈ (handleStream [XmlEvent.start "think" [], XmlEvent.text "a", XmlEvent.close,
        XmlEvent.start "output" [("type", "x")], XmlEvent.close] 0).calls,
      isCreation cr = true ∧
        cr.index = (⟨0, "think", [], ["a"], true⟩ : StackElement).index ∧
        cr.tag = (⟨0, "think", [], ["a"], true⟩ : StackElement).tag ∧
        cr.attributes = (⟨0, "think", [], ["a"], true⟩ : StackElement).attributes := by
  have h := c2_index_stability [XmlEvent.start "think" [], XmlEvent.text "a", XmlEvent.close,
    XmlEvent.start "output" [("type", "x")], XmlEvent.close] 0
  exact ⟨h.1, h.2 ⟨0, "think", [], ["a"], true⟩ (by decide)⟩

/-- C3: the element stack is a strict LIFO.  Processing an end event in any
reachable state with an open element closes exactly the most recently opened
still-open element (the open element of maximal index): the callback receives
its snapshot marked done=true, and its parent — the most recently pushed
ancestor — becomes the new current element. -/
theorem c3_lifo_close (events : List XmlEvent) (i0 : Nat) (c : StackElement)
    (h : (handleStream events i0).current = some c) :
    (handleEvent (handleStream events i0) .close).calls
        = (handleStream events i0).calls ++ [{ c with done := true }] ∧
    (handleEvent (handleStream events i0) .close).current
        = (handleStream events i0).stack.head? ∧
    (handleEvent (handleStream events i0) .close).stack
        = (handleStream events i0).stack.tail ∧
    ∀ e ∈ openL (handleStream events i0), e.index ≤ c.index := by
  have inv := streamInv_handleStream events i0
  rw [handleEvent_close_some h]
  refine ⟨rfl, rfl, rfl, ?_⟩
  intro e he
  rw [openL_of_current h] at he
  have hstack : ∀ b ∈ (handleStream events i0).stack, b.index < c.index := by
    have hs := inv.open_sorted
    rw [openL_of_current h, List.pairwise_cons] at hs
    exact hs.1
  rcases List.mem_cons.mp he with rfl | he2
  · exact Nat.le_refl _
  · exact Nat.le_of_lt (hstack e he2)

theorem c3_witness :
    (handleStream [XmlEvent.start "think" [], XmlEvent.start "response" []] 0).current
        = some ⟨1, "response", [], [], false⟩ ∧
    (handleEvent (handleStream [XmlEvent.start "think" [], XmlEvent.start "response" []] 0)
        .close).calls
      = (handleStream [XmlEvent.start "think" [], XmlEvent.start "response" []] 0).calls
          ++ [{ (⟨1, "response", [], [], false⟩ : StackElement) with done := true }] :=
  ⟨rfl, (c3_lifo_close [XmlEvent.start "think" [], XmlEvent.start "response" []] 0
    ⟨1, "response", [], [], false⟩ rfl).1⟩

/-- C8 (amended): every element opened by a start event and closed by a
matching end event before the stream ends receives exactly 2 + k callback
invocations, where k is the number of text fragments appended to it: one at
creation with done=false, one intermediate done=false invocation per
fragment, and a final one with done=true.  An element left open when the
stream ends receives no done=true invocation (see the counterexample). -/
theorem c8_element_callbacks (events : List XmlEvent) (i0 i : Nat)
    (h1 : i0 ≤ i) (h2 : i < (handleStream events i0).index)
    (h3 : ∀ e ∈ openL (handleStream events i0), e.index ≠ i) :
    ∃ fin, (callsFor i (handleStream events i0).calls).getLast? = some fin ∧
      fin.index = i ∧ fin.done = true ∧
      (callsFor i (handleStream events i0).calls).head?
          = some ⟨i, fin.tag, fin.attributes, [], false⟩ ∧
      (callsFor i (handleStream events i0).calls).length = 2 + fin.content.length ∧
      ∀ c ∈ (callsFor i (handleStream events i0).calls).dropLast, c.done = false := by
  obtain ⟨fin, ha, hb, hc, hd, he, hf, _⟩ :=
    (streamInv_handleStream events i0).closed_spec i h1 h2 h3
  exact ⟨fin, ha, hb, hc, hd, he, hf⟩

theorem c8_witness :
    (0 < (handleStream [XmlEvent.start "think" [], XmlEvent.text "hel", XmlEvent.text "lo",
        XmlEvent.close] 0).index) ∧
    ∃ fin, (callsFor 0 (handleStream [XmlEvent.start "think" [], XmlEvent.text "hel",
        XmlEvent.text "lo", XmlEvent.close] 0).calls).getLast? = some fin ∧
      fin.index = 0 ∧ fin.done = true ∧
      (callsFor 0 (handleStream [XmlEvent.start "think" [], XmlEvent.text "hel",
          XmlEvent.text "lo", XmlEvent.close] 0).calls).head?
        = some ⟨0, fin.tag, fin.attributes, [], false⟩ ∧
      (callsFor 0 (handleStream [XmlEvent.start "think" [], XmlEvent.text "hel",
          XmlEvent.text "lo", XmlEvent.close] 0).calls).length = 2 + fin.content.length ∧
      ∀ c ∈ (callsFor 0 (handleStream [XmlEvent.start "think" [], XmlEvent.text "hel",
          XmlEvent.text "lo", XmlEvent.close] 0).calls).dropLast, c.done = false :=
  ⟨by decide,
    c8_element_callbacks [XmlEvent.start "think" [], XmlEvent.text "hel", XmlEvent.text "lo",
      XmlEvent.close] 0 0 (by decide) (by decide) (by decide)⟩

theorem c8_counterexample :
    (handleStream [XmlEvent.start "think" []] 0).calls
        = [⟨0, "think", [], [], false⟩] ∧
    ((handleStream [XmlEvent.start "think" []] 0).calls.filter (fun c => c.done)).length
        = 0 := by
  constructor
  · rfl
  · rfl


/-- C1: a record handed to the commit path is appended to Chain (and to its
WorkingMemory sequence) exactly once, namely on the single update whose done
flag is true: a done=false update only invokes the `onLogStream` hook and
leaves everything else (Chain, WorkingMemory included) unchanged; a done=true
update appends the record once to Chain and once to the matching
WorkingMemory sequence (for output refs the commit loop appends to
WorkingMemory.outputs and Chain in the same done=true iteration); and in any
stream trace an element index receives at most one done=true update. -/
theorem c1_commit_exactly_once :
    (∀ (cfg : Config) (s : DState) (log : Log),
      pushLogStream cfg s log false =
        { s with onLogStream := s.onLogStream ++ [(log, false)] }) ∧
    (∀ (cfg : Config) (s : DState) (log : Log),
      (pushLogStream cfg s log true).chain = s.chain ++ [log]) ∧
    (∀ (cfg : Config) (s : DState) (log : Log), log.ref = RefKind.thought →
      (pushLogStream cfg s log true).wm
        = { s.wm with thoughts := s.wm.thoughts ++ [log] }) ∧
    (∀ (cfg : Config) (s : DState) (log : Log), log.ref = RefKind.action_call →
      (pushLogStream cfg s log true).wm = { s.wm with calls := s.wm.calls ++ [log] }) ∧
    (∀ (cfg : Config) (s : DState) (log : Log), log.ref = RefKind.action_result →
      (pushLogStream cfg s log true).wm = { s.wm with results := s.wm.results ++ [log] }) ∧
    (∀ (cfg : Config) (s : SysState) (r : Log),
      (handleOutputStream cfg s r true).d.wm.outputs
          = s.d.wm.outputs ++ cfg.handleOutput r ∧
        (handleOutputStream cfg s r true).d.chain = s.d.chain ++ cfg.handleOutput r) ∧
    (∀ (events : List XmlEvent) (i0 i : Nat),
      ((callsFor i (handleStream events i0).calls).filter (fun c => c.done)).length ≤ 1) := by
  refine ⟨pushLogStream_false, pushLogStream_true_chain, ?_, ?_, ?_, ?_,
    callsFor_done_le_one⟩
  · intro cfg s log h
    cases log with
    | thought i t ct p => rw [pushLogStream_true_thought]
    | action_call i t n ct dt p => simp [Log.ref] at h
    | action_result i t ci n dat p => simp [Log.ref] at h
    | output_ref i t ty dt p => simp [Log.ref] at h
  · intro cfg s log h
    cases log with
    | thought i t ct p => simp [Log.ref] at h
    | action_call i t n ct dt p => rw [pushLogStream_true_action_call]
    | action_result i t ci n dat p => simp [Log.ref] at h
    | output_ref i t ty dt p => simp [Log.ref] at h
  · intro cfg s log h
    cases log with
    | thought i t ct p => simp [Log.ref] at h
    | action_call i t n ct dt p => simp [Log.ref] at h
    | action_result i t ci n dat p => rw [pushLogStream_result_wm]
    | output_ref i t ty dt p => simp [Log.ref] at h
  · intro cfg s r
    exact ⟨by rw [handleOutputStream_true, foldl_commitOutputRef_outputs],
      by rw [handleOutputStream_true, foldl_commitOutputRef_chain]⟩

theorem c1_witness :
    (pushLogStream cfg0 {} (Log.thought 1 2 "x" false) true).wm =
      { ({} : DState).wm with
          thoughts := ({} : DState).wm.thoughts ++ [Log.thought 1 2 "x" false] } ∧
    (pushLogStream cfg0 {} (Log.action_call 1 2 none "" none false) true).wm =
      { ({} : DState).wm with
          calls := ({} : DState).wm.calls ++ [Log.action_call 1 2 none "" none false] } ∧
    (pushLogStream cfg0 {} (Log.action_result 1 2 0 none (RData.value "v") false) true).wm =
      { ({} : DState).wm with
          results := ({} : DState).wm.results
            ++ [Log.action_result 1 2 0 none (RData.value "v") false] } :=
  ⟨c1_commit_exactly_once.2.2.1 cfg0 {} _ rfl,
    c1_commit_exactly_once.2.2.2.1 cfg0 {} _ rfl,
    c1_commit_exactly_once.2.2.2.2.1 cfg0 {} _ rfl⟩

/-- C4 (amended): an output element whose required `type` attribute is
missing is dropped with a logged error and produces no record: Chain,
WorkingMemory, the pending executions and the hook trace are unchanged, only
the error log grows.  (The action_call half of the original claim is false:
the dispatch layer performs no check on the `name` attribute — see the
counterexample.) -/
theorem c4_output_missing_type (cfg : Config) (s : SysState) (el : StackElement)
    (h1 : s.aborted = false) (h2 : el.tag = "output")
    (h3 : el.attributes.lookup "type" = none) :
    (handler cfg s el).d.chain = s.d.chain ∧
    (handler cfg s el).d.wm = s.d.wm ∧
    (handler cfg s el).pending = s.pending ∧
    (handler cfg s el).d.onLogStream = s.d.onLogStream ∧
    (handler cfg s el).d.errors = s.d.errors ++ ["Missing output type attribute"] := by
  obtain ⟨ix, tg, attrs, ct, dn⟩ := el
  simp only at h2 h3
  subst h2
  have hne : ¬ (s.aborted = true) := by
    rw [h1]
    exact Bool.false_ne_true
  have hred : handler cfg s ⟨ix, "output", attrs, ct, dn⟩ =
      (let r := getOrCreateRef { s with index := max ix s.index } ix .output
       match attrs.lookup "type" with
       | none =>
           { r.2 with d := { r.2.d with
               errors := r.2.d.errors ++ ["Missing output type attribute"] } }
       | some ty =>
           handleOutputStream cfg r.2
             (.output_ref r.1.id r.1.timestamp ty (String.join ct).trim r.1.processed) dn) := by
    unfold handler
    rw [if_neg hne]
    rfl
  rw [hred]
  dsimp only
  rw [h3]
  dsimp only
  refine ⟨?_, ?_, ?_, ?_, ?_⟩
  · rw [getOrCreateRef_snd_d]
  · rw [getOrCreateRef_snd_d]
  · rw [getOrCreateRef_snd_pending]
  · rw [getOrCreateRef_snd_d]
  · rw [getOrCreateRef_snd_d]

theorem c4_witness :
    (handler cfg0 {} ⟨0, "output", [], ["x"], true⟩).d.chain = ({} : SysState).d.chain ∧
    (handler cfg0 {} ⟨0, "output", [], ["x"], true⟩).d.wm = ({} : SysState).d.wm ∧
    (handler cfg0 {} ⟨0, "output", [], ["x"], true⟩).pending = ({} : SysState).pending ∧
    (handler cfg0 {} ⟨0, "output", [], ["x"], true⟩).d.onLogStream
        = ({} : SysState).d.onLogStream ∧
    (handler cfg0 {} ⟨0, "output", [], ["x"], true⟩).d.errors
        = ({} : SysState).d.errors ++ ["Missing output type attribute"] :=
  c4_output_missing_type cfg0 {} ⟨0, "output", [], ["x"], true⟩ rfl rfl rfl

theorem c4_counterexample :
    (handler cfg0 {} ⟨0, "action_call", [], ["x"], true⟩).d.chain
        = [Log.action_call 0 0 none "x" none false] ∧
    (handler cfg0 {} ⟨0, "action_call", [], ["x"], true⟩).pending
        = [Log.action_call 0 0 none "x" none false] ∧
    (handler cfg0 {} ⟨0, "action_call", [], ["x"], true⟩).d.errors = [] :=
  ⟨rfl, rfl, rfl⟩

theorem c5_counterexample :
    (runMSteps cfg0 {}
        [MStep.elem ⟨0, "action_call", [("name", "a")], [], true⟩,
         MStep.elem ⟨1, "think", [], ["t"], true⟩,
         MStep.task]).sys.d.chain
      = [Log.thought 1 0 "t" false, Log.action_call 0 0 (some "a") "" none false] ∧
    (runMSteps cfg0 {}
        [MStep.elem ⟨0, "action_call", [("name", "a")], [], true⟩,
         MStep.elem ⟨1, "think", [], ["t"], true⟩,
         MStep.task]).sys.d.chain.head?
      ≠ some (Log.action_call 0 0 (some "a") "" none false) := by
  constructor
  · rfl
  · decide

/-- C5 (amended): when an action_call element's final done=true update is
dispatched, the dispatch suspends at the awaited action resolution before
committing: nothing is committed synchronously — the continuation is queued
as a microtask, so a structurally later element of the same chunk may commit
to Chain before the ActionCall record (see the counterexample).  When the
queued continuation runs uncancelled it appends the ActionCall record to
Chain before queueing the execution, and the corresponding ActionResults
commit in each execution's completion order rather than in call order, as
the concrete two-call run with reversed completions shows. -/
theorem c5_deferred_commit :
    (∀ (cfg : Config) (m : MState) (el : StackElement),
      m.sys.aborted = false → el.tag = "action_call" → el.done = true →
      ∃ call, (mhandler cfg m el).tasks = m.tasks ++ [MicroTask.actionResume call] ∧
        call.rname = el.attributes.lookup "name" ∧
        (mhandler cfg m el).sys.d = m.sys.d ∧
        (mhandler cfg m el).sys.pending = m.sys.pending) ∧
    (∀ (cfg : Config) (sys : SysState) (rest : List MicroTask) (call : Log),
      sys.aborted = false →
      (runTask cfg ⟨sys, MicroTask.actionResume call :: rest⟩).sys.d.chain
          = sys.d.chain ++ [call] ∧
      (runTask cfg ⟨sys, MicroTask.actionResume call :: rest⟩).sys.pending
          = sys.pending ++ [call] ∧
      (runTask cfg ⟨sys, MicroTask.actionResume call :: rest⟩).tasks = rest) ∧
    ((runMSteps cfg0 {}
        [MStep.elem ⟨0, "action_call", [("name", "a")], [], true⟩,
         MStep.elem ⟨1, "action_call", [("name", "b")], [], true⟩,
         MStep.task, MStep.task,
         MStep.complete 1
           (Except.ok (Log.action_result 100 0 1 (some "b") (RData.value "rb") false)),
         MStep.complete 0
           (Except.ok (Log.action_result 101 0 0 (some "a") (RData.value "ra") false))]).sys.d.chain
      = [Log.action_call 0 0 (some "a") "" none false,
         Log.action_call 1 0 (some "b") "" none false,
         Log.action_result 100 0 1 (some "b") (RData.value "rb") false,
         Log.action_result 101 0 0 (some "a") (RData.value "ra") false]) := by
  refine ⟨?_, ?_, rfl⟩
  · intro cfg m el h1 h2 h3
    obtain ⟨ix, tg, attrs, ct, dn⟩ := el
    simp only at h2 h3
    subst h2
    subst h3
    have hne : ¬ (m.sys.aborted = true) := by
      rw [h1]
      exact Bool.false_ne_true
    have hred : mhandler cfg m ⟨ix, "action_call", attrs, ct, true⟩ =
        (let r := getOrCreateRef { m.sys with index := max ix m.sys.index } ix .action_call
         ({ sys := r.2,
            tasks := m.tasks ++ [MicroTask.actionResume (.action_call r.1.id r.1.timestamp
              (attrs.lookup "name") (String.join ct) none r.1.processed)] } : MState)) := by
      unfold mhandler
      rw [if_neg hne]
      rfl
    rw [hred]
    dsimp only
    refine ⟨_, rfl, rfl, ?_, ?_⟩
    · rw [getOrCreateRef_snd_d]
    · rw [getOrCreateRef_snd_pending]
  · intro cfg sys rest call h
    unfold runTask
    dsimp only
    refine ⟨?_, ?_, rfl⟩
    · rw [handleActionCallStream_true _ _ _ h]
      dsimp only
      rw [pushLogStream_true_chain]
    · rw [handleActionCallStream_true _ _ _ h]

theorem c5_witness :
    (∃ call, (mhandler cfg0 {} ⟨0, "action_call", [("name", "a")], [], true⟩).tasks
        = ({} : MState).tasks ++ [MicroTask.actionResume call] ∧
      call.rname = (⟨0, "action_call", [("name", "a")], [], true⟩
          : StackElement).attributes.lookup "name" ∧
      (mhandler cfg0 {} ⟨0, "action_call", [("name", "a")], [], true⟩).sys.d
          = ({} : MState).sys.d ∧
      (mhandler cfg0 {} ⟨0, "action_call", [("name", "a")], [], true⟩).sys.pending
          = ({} : MState).sys.pending) ∧
    (runTask cfg0 ⟨{}, [MicroTask.actionResume (Log.action_call 9 0 (some "a") "" none false)]⟩
        ).sys.d.chain
      = [Log.action_call 9 0 (some "a") "" none false] := by
  refine ⟨c5_deferred_commit.1 cfg0 {} ⟨0, "action_call", [("name", "a")], [], true⟩
    rfl rfl rfl, ?_⟩
  have h := c5_deferred_commit.2.1 cfg0 {} []
    (Log.action_call 9 0 (some "a") "" none false) rfl
  exact h.1


/-- C6: when the detached execution of a finalized ActionCall fails, the
catch branch still produces an ActionResult with the same callId and name as
the call and with data equal to the error object carrying the serialized
failure; the result is committed through the ordinary commit path (appended
to Chain and WorkingMemory.results) and the pending entry is consumed — the
completion step is total, so the failure never propagates to or aborts the
dispatch loop. -/
theorem c6_failure_result (cfg : Config) (s : SysState) (k : Nat) (call : Log) (err : String)
    (h : s.pending.get? k = some call) :
    (completeStep cfg s k (Except.error err)).d.chain
        = s.d.chain ++ [Log.action_result s.nextId s.now call.rid call.rname
            (RData.errorObj (cfg.serialize err)) false] ∧
    (completeStep cfg s k (Except.error err)).d.wm.results
        = s.d.wm.results ++ [Log.action_result s.nextId s.now call.rid call.rname
            (RData.errorObj (cfg.serialize err)) false] ∧
    (completeStep cfg s k (Except.error err)).pending = s.pending.eraseIdx k := by
  unfold completeStep
  rw [h]
  dsimp only
  refine ⟨?_, ?_, rfl⟩
  · rw [pushLogStream_true_chain]
  · rw [pushLogStream_result_wm]

theorem c6_witness :
    (completeStep cfg0
        { pending := [Log.action_call 3 1 (some "foo") "" none false], nextId := 9, now := 4 }
        0 (Except.error "boom")).d.chain
      = [Log.action_result 9 4 3 (some "foo") (RData.errorObj "boom") false] := by
  have h := c6_failure_result cfg0
    { pending := [Log.action_call 3 1 (some "foo") "" none false], nextId := 9, now := 4 }
    0 (Log.action_call 3 1 (some "foo") "" none false) "boom" rfl
  exact h.1

/-- C7: if the cancellation signal is already set when a finalized action
call reaches the dispatch step, the execution is skipped entirely — the state
is unchanged, so no call record is committed, nothing is queued, and no
result for that call can ever be produced; once the signal is set the handler
ignores every further element update, so no record for element N+1 is
created; but the completion of an execution that was already pending still
commits its ActionResult through the ordinary commit path. -/
theorem c7_cancellation :
    (∀ (cfg : Config) (s : SysState) (call : Log), s.aborted = true →
        handleActionCallStream cfg s call true = s) ∧
    (∀ (cfg : Config) (s : SysState) (el : StackElement), s.aborted = true →
        handler cfg s el = s) ∧
    (∀ (cfg : Config) (s : SysState) (k : Nat) (res call : Log), s.aborted = true →
        s.pending.get? k = some call →
        (completeStep cfg s k (Except.ok res)).d.chain = s.d.chain ++ [res] ∧
        (completeStep cfg s k (Except.ok res)).pending = s.pending.eraseIdx k) := by
  refine ⟨?_, ?_, ?_⟩
  · intro cfg s call h
    exact handleActionCallStream_true_aborted cfg s call h
  · intro cfg s el h
    simp [handler, h]
  · intro cfg s k res call _h h2
    unfold completeStep
    rw [h2]
    dsimp only
    exact ⟨pushLogStream_true_chain cfg s.d res, rfl⟩

theorem c7_witness :
    handleActionCallStream cfg0 { aborted := true } (Log.action_call 0 0 none "" none false)
        true = { aborted := true } ∧
    handler cfg0 { aborted := true } ⟨0, "think", [], [], false⟩ = { aborted := true } ∧
    (completeStep cfg0
        { pending := [Log.action_call 0 0 none "" none false], aborted := true } 0
        (Except.ok (Log.action_result 1 0 0 none (RData.value "r") false))).d.chain
      = [Log.action_result 1 0 0 none (RData.value "r") false] := by
  refine ⟨c7_cancellation.1 cfg0 { aborted := true } (Log.action_call 0 0 none "" none false)
    rfl, c7_cancellation.2.1 cfg0 { aborted := true } ⟨0, "think", [], [], false⟩ rfl, ?_⟩
  have h := c7_cancellation.2.2 cfg0
    { pending := [Log.action_call 0 0 none "" none false], aborted := true } 0
    (Log.action_result 1 0 0 none (RData.value "r") false)
    (Log.action_call 0 0 none "" none false) rfl rfl
  exact h.1

/-- C9 (amended): at the moment an ActionResult is committed, the
episodic-memory trigger fires if and only if episodic memory generation is
enabled (`agent.memory.generateMemories` is present) and WorkingMemory
already holds at least one Thought and at least one ActionCall, using the
positionally most recent of each; invocation is fire-and-forget — a failure
only appends to the error log, and Chain, WorkingMemory and the hook trace
are identical whatever the failure behaviour, so failures are never retried
or surfaced to the caller. -/
theorem c9_episodic_trigger (cfg : Config) (s : DState) (i t ci : Nat)
    (n : Option String) (dat : RData) (p : Bool) :
    (∀ lt lc, s.wm.thoughts.getLast? = some lt → s.wm.calls.getLast? = some lc →
      cfg.generateMemories = true →
      (pushLogStream cfg s (.action_result i t ci n dat p) true).episodes =
          s.episodes ++ [(lt, lc, .action_result i t ci n dat p)] ∧
      (pushLogStream cfg s (.action_result i t ci n dat p) true).errors =
          s.errors ++ (match cfg.episodeFail lt lc (.action_result i t ci n dat p) with
            | some e => ["Failed to generate episode: " ++ e]
            | none => [])) ∧
    ((s.wm.thoughts.getLast? = none ∨ s.wm.calls.getLast? = none ∨
        cfg.generateMemories = false) →
      (pushLogStream cfg s (.action_result i t ci n dat p) true).episodes = s.episodes ∧
      (pushLogStream cfg s (.action_result i t ci n dat p) true).errors = s.errors) ∧
    (∀ f g,
      (pushLogStream { cfg with episodeFail := f } s (.action_result i t ci n dat p)
          true).chain
        = (pushLogStream { cfg with episodeFail := g } s (.action_result i t ci n dat p)
          true).chain ∧
      (pushLogStream { cfg with episodeFail := f } s (.action_result i t ci n dat p) true).wm
        = (pushLogStream { cfg with episodeFail := g } s (.action_result i t ci n dat p)
          true).wm ∧
      (pushLogStream { cfg with episodeFail := f } s (.action_result i t ci n dat p)
          true).onLogStream
        = (pushLogStream { cfg with episodeFail := g } s (.action_result i t ci n dat p)
          true).onLogStream) := by
  refine ⟨?_, ?_, ?_⟩
  · intro lt lc h1 h2 h3
    exact pushLogStream_result_fire cfg s i t ci n dat p h1 h2 h3
  · intro h
    exact pushLogStream_result_skip cfg s i t ci n dat p h
  · intro f g
    refine ⟨?_, ?_, ?_⟩
    · rw [pushLogStream_true_chain, pushLogStream_true_chain]
    · rw [pushLogStream_result_wm, pushLogStream_result_wm]
    · rw [pushLogStream_true_onLogStream, pushLogStream_true_onLogStream]

theorem c9_witness :
    (pushLogStream cfgGen
        { wm := { thoughts := [Log.thought 0 0 "t" false],
                  calls := [Log.action_call 1 0 (some "a") "" none false] } }
        (Log.action_result 2 0 1 (some "a") (RData.value "r") false) true).episodes
      = [(Log.thought 0 0 "t" false, Log.action_call 1 0 (some "a") "" none false,
          Log.action_result 2 0 1 (some "a") (RData.value "r") false)] := by
  have h := (c9_episodic_trigger cfgGen
    { wm := { thoughts := [Log.thought 0 0 "t" false],
              calls := [Log.action_call 1 0 (some "a") "" none false] } }
    2 0 1 (some "a") (RData.value "r") false).1
    (Log.thought 0 0 "t" false) (Log.action_call 1 0 (some "a") "" none false) rfl rfl rfl
  exact h.1

theorem c9_counterexample :
    (pushLogStream cfg0
        { wm := { thoughts := [Log.thought 0 0 "t" false],
                  calls := [Log.action_call 1 0 (some "a") "" none false] } }
        (Log.action_result 2 0 1 (some "a") (RData.value "r") false) true).episodes = [] ∧
    ({ wm := { thoughts := [Log.thought 0 0 "t" false],
               calls := [Log.action_call 1 0 (some "a") "" none false] } }
        : DState).wm.thoughts ≠ [] ∧
    ({ wm := { thoughts := [Log.thought 0 0 "t" false],
               calls := [Log.action_call 1 0 (some "a") "" none false] } }
        : DState).wm.calls ≠ [] := by
  refine ⟨rfl, ?_, ?_⟩ <;> simp

/-- C10: for every element index the record id, timestamp and initial
processed=false flag are allocated exactly once, on the first dispatched
update for that index (when the index is not yet in `logsByIndex` a fresh id
and the current time are stored together with processed=false); every later
call for the same index returns the stored entry unchanged, and the records
subsequently emitted for that element — partial or final — carry exactly the
stored id, timestamp and processed flag. -/
theorem c10_ref_allocation :
    (∀ (s : SysState) (i : Nat) (ref : RefKind), s.logsByIndex.lookup i = none →
      getOrCreateRef s i ref =
        (⟨ref, s.nextId, s.now, false⟩,
          { s with logsByIndex := s.logsByIndex ++ [(i, ⟨ref, s.nextId, s.now, false⟩)],
                   nextId := s.nextId + 1 })) ∧
    (∀ (s : SysState) (i : Nat) (ref : RefKind) (pl : PartialLog),
      s.logsByIndex.lookup i = some pl → getOrCreateRef s i ref = (pl, s)) ∧
    (∀ (cfg : Config) (s : SysState) (el : StackElement) (pl : PartialLog),
      s.aborted = false → el.tag = "think" → s.logsByIndex.lookup el.index = some pl →
      (handler cfg s el).d.onLogStream = s.d.onLogStream ++
        [(Log.thought pl.id pl.timestamp (String.join el.content) pl.processed, el.done)]) := by
  refine ⟨getOrCreateRef_miss, getOrCreateRef_hit, ?_⟩
  intro cfg s el pl h1 h2 h3
  obtain ⟨ix, tg, attrs, ct, dn⟩ := el
  simp only at h2 h3
  subst h2
  have hne : ¬ (s.aborted = true) := by
    rw [h1]
    exact Bool.false_ne_true
  have hred : handler cfg s ⟨ix, "think", attrs, ct, dn⟩ =
      (let r := getOrCreateRef { s with index := max ix s.index } ix .thought
       { r.2 with d := (pushLogStream cfg r.2.d
           (.thought r.1.id r.1.timestamp (String.join ct) r.1.processed) dn) }) := by
    unfold handler
    rw [if_neg hne]
    rfl
  rw [hred]
  dsimp only
  have h3b : ({ s with index := max ix s.index } : SysState).logsByIndex.lookup ix
      = some pl := h3
  rw [getOrCreateRef_hit _ _ _ _ h3b]
  dsimp only
  cases dn with
  | false => rw [pushLogStream_false]
  | true => rw [pushLogStream_true_onLogStream]

theorem c10_witness :
    (handler cfg0
        { logsByIndex := [(0, ⟨RefKind.thought, 42, 7, false⟩)], nextId := 50, now := 99 }
        ⟨0, "think", [], ["he", "llo"], true⟩).d.onLogStream
      = [(Log.thought 42 7 "hello" false, true)] := by
  have h := c10_ref_allocation.2.2 cfg0
    { logsByIndex := [(0, ⟨RefKind.thought, 42, 7, false⟩)], nextId := 50, now := 99 }
    ⟨0, "think", [], ["he", "llo"], true⟩ ⟨RefKind.thought, 42, 7, false⟩ rfl rfl rfl
  exact h

end Daydreams
